import Mathlib

/-!
# Verification of the seqtable counting core

Shallow embedding of the core of `src/main.rs` and `src/output.rs`:

* the thread-budget resolver `calculate_optimal_threads`,
* the chunk-size planner `calculate_chunk_size`,
* the sequential counter `count_sequences_sequential`,
* the chunked aggregator `count_sequences` (partition / per-chunk count /
  pairwise merge),
* the table builder `prepare_records`,
* the schema-selection logic of the serializers `save_parquet` / `save_csv`.

Modelling conventions:

* The external sequence reader (`parse_fastx_file` + `reader.next()`) is
  modelled as a finite list `List (Except String Bytes)`: each element is
  either a successfully decoded raw record (its sequence bytes) or a decode
  error, matching the spec's pull-based reader contract.  A real reader stops
  at the first error; elements after an `.error` are never reached by the
  loops below, which mirrors that.
* `AHashMap<String, u64>` is modelled as an association list
  `List (Sequence × Nat)` with unique keys; the hash map's unspecified iteration
  order becomes the list order.  The entry API `*m.entry(k).or_insert(0) += c`
  is `addCount`.
* `String::from_utf8_lossy(..).to_string()` (main.rs lines 253 and 330) is
  modelled byte-accurately by `utf8DecodeLossy`, producing the list of Unicode
  code points of the resulting string (invalid UTF-8 is replaced by U+FFFD
  per maximal invalid subpart, as in Rust's `run_utf8_validation`).
* `u64`/`usize` values are `Nat`; none of the modelled arithmetic can
  overflow 64 bits on inputs a real run can produce, and no wrapping
  arithmetic appears in the source.
* `f64` RPM values are modelled as exact rationals `ℚ`; the serializers'
  2-decimal text formatting is modelled by `fmt2`.
* Progress-bar and printing side effects are presentational (spec section 4.4)
  and are omitted; file writing is modelled as the logical content produced.
-/

/-- A counted sequence: the list of Unicode code points of the `String`
produced by `String::from_utf8_lossy(&record.seq()).to_string()`. -/
abbrev Sequence := List Nat

/-- Raw record bytes as yielded by the sequence reader (`record.seq()`). -/
abbrev Bytes := List Nat

/-- The frequency map `AHashMap<String, u64>`, as an association list with
unique keys (list order stands for the map's unspecified iteration order). -/
abbrev FreqMap := List (Sequence × Nat)

/-- UTF-8 continuation byte test: `0x80..=0xBF`. -/
def isCont (b : Nat) : Bool := decide (0x80 ≤ b ∧ b ≤ 0xBF)

/-- Valid second byte of a 3-byte UTF-8 sequence headed by `b1`
(`0xE0 → 0xA0..=0xBF`, `0xED → 0x80..=0x9F`, else any continuation),
as in Rust's `run_utf8_validation`. -/
def valid3Second (b1 b2 : Nat) : Bool :=
  if b1 = 0xE0 then decide (0xA0 ≤ b2 ∧ b2 ≤ 0xBF)
  else if b1 = 0xED then decide (0x80 ≤ b2 ∧ b2 ≤ 0x9F)
  else isCont b2

/-- Valid second byte of a 4-byte UTF-8 sequence headed by `b1`
(`0xF0 → 0x90..=0xBF`, `0xF4 → 0x80..=0x8F`, else any continuation). -/
def valid4Second (b1 b2 : Nat) : Bool :=
  if b1 = 0xF0 then decide (0x90 ≤ b2 ∧ b2 ≤ 0xBF)
  else if b1 = 0xF4 then decide (0x80 ≤ b2 ∧ b2 ≤ 0x8F)
  else isCont b2

/-- One step of Rust's UTF-8 validation at the head of the byte list: the
decoded code point and the number of bytes consumed, or `0xFFFD` (U+FFFD)
with the validator's skip length (`error_len`, 1..3; a sequence truncated by
the end of input consumes the whole remaining prefix and yields a single
replacement, as `from_utf8_lossy` does). -/
def utf8Step (l : List Nat) : Nat × Nat :=
  match l with
  | [] => (0xFFFD, 1)
  | b1 :: rest =>
    if b1 < 0x80 then (b1, 1)
    else if b1 < 0xC2 then (0xFFFD, 1)
    else if b1 < 0xE0 then
      match rest with
      | [] => (0xFFFD, 1)
      | b2 :: _ =>
        if isCont b2 then ((b1 - 0xC0) * 0x40 + (b2 - 0x80), 2)
        else (0xFFFD, 1)
    else if b1 < 0xF0 then
      match rest with
      | [] => (0xFFFD, 1)
      | b2 :: rest2 =>
        if valid3Second b1 b2 then
          match rest2 with
          | [] => (0xFFFD, 2)
          | b3 :: _ =>
            if isCont b3 then
              ((b1 - 0xE0) * 0x1000 + (b2 - 0x80) * 0x40 + (b3 - 0x80), 3)
            else (0xFFFD, 2)
        else (0xFFFD, 1)
    else if b1 < 0xF5 then
      match rest with
      | [] => (0xFFFD, 1)
      | b2 :: rest2 =>
        if valid4Second b1 b2 then
          match rest2 with
          | [] => (0xFFFD, 2)
          | b3 :: rest3 =>
            if isCont b3 then
              match rest3 with
              | [] => (0xFFFD, 3)
              | b4 :: _ =>
                if isCont b4 then
                  ((b1 - 0xF0) * 0x40000 + (b2 - 0x80) * 0x1000 +
                      (b3 - 0x80) * 0x40 + (b4 - 0x80), 4)
                else (0xFFFD, 3)
            else (0xFFFD, 2)
        else (0xFFFD, 1)
    else (0xFFFD, 1)

/-- The decoding loop: repeatedly take one `utf8Step` and skip the consumed
bytes.  `fuel` bounds the number of steps; since every step consumes at
least one byte, `fuel = l.length` suffices. -/
def utf8Go (fuel : Nat) (l : List Nat) : List Nat :=
  match fuel, l with
  | _, [] => []
  | 0, _ => []
  | fuel + 1, l =>
    let p := utf8Step l
    p.1 :: utf8Go fuel (l.drop p.2)

/-- `String::from_utf8_lossy` on a byte list, returned as the code points of
the resulting string.  Invalid data is replaced by U+FFFD (`0xFFFD`), one
replacement per maximal invalid subpart, exactly as Rust's validator skips
it. -/
def utf8DecodeLossy (l : List Nat) : List Nat :=
  utf8Go l.length l

/-- The frequency-map key a raw record is counted under:
`String::from_utf8_lossy(&record.seq()).to_string()`
(main.rs lines 253 and 330). -/
def recordKey (bytes : Bytes) : Sequence := utf8DecodeLossy bytes

/-- The hash-map entry API `*m.entry(s).or_insert(0) += c`: bump the count of
`s` in place if present, else insert `(s, c)` (new keys go to the end of the
association list). -/
def addCount (m : FreqMap) (s : Sequence) (c : Nat) : FreqMap :=
  match m with
  | [] => [(s, c)]
  | (k, v) :: rest =>
    if k = s then (k, v + c) :: rest else (k, v) :: addCount rest s c

/-- `*m.entry(s).or_insert(0) += 1` (counting one occurrence). -/
def incr (m : FreqMap) (s : Sequence) : FreqMap := addCount m s 1

/-- Map lookup, with 0 for an absent key (matching `or_insert(0)`). -/
def getCount (m : FreqMap) (s : Sequence) : Nat :=
  match m with
  | [] => 0
  | (k, v) :: rest => if k = s then v else getCount rest s

/-- The key list of a frequency map. -/
def keys (m : FreqMap) : List Sequence := m.map Prod.fst

/-- The sum of all counts stored in a frequency map. -/
def sumCounts (m : FreqMap) : Nat := (m.map Prod.snd).sum

/-- Stage 2 worker closure (main.rs lines 287-293): count one chunk into a
fresh local map by folding `incr` over the chunk's sequences. -/
def count_chunk (chunk : List Sequence) : FreqMap :=
  chunk.foldl (fun m s => incr m s) []

/-- Stage 3 merge closure (main.rs lines 299-304): add every entry of the
right map into the accumulator, summing counts for keys present in both and
inserting new keys otherwise. -/
def mergeMaps (acc m : FreqMap) : FreqMap :=
  m.foldl (fun a p => addCount a p.1 p.2) acc

/-- The reading loop of `count_sequences_sequential` (main.rs lines 328-333):
consume the stream once, incrementing one map and the total; a reader error
aborts with the `anyhow` context `"Failed to read record"`. -/
def seqLoop (stream : List (Except String Bytes)) (m : FreqMap) (n : Nat) :
    Except String (FreqMap × Nat) :=
  match stream with
  | [] => .ok (m, n)
  | .error e :: _ => .error ("Failed to read record: " ++ e)
  | .ok bs :: rest => seqLoop rest (incr m (recordKey bs)) (n + 1)

/-- `count_sequences_sequential` (main.rs lines 314-340): single-threaded
fast path, one map, one pass. -/
def count_sequences_sequential (stream : List (Except String Bytes)) :
    Except String (FreqMap × Nat) :=
  seqLoop stream [] 0

/-- Stage 1 of `count_sequences` (main.rs lines 247-272): buffer the stream
into chunks of `chunk_size` sequences (`current_chunk` is flushed as soon as
it reaches `chunk_size`; a non-empty final partial chunk is kept), counting
total records; a reader error aborts the whole operation before any counting.
-/
def readChunks (stream : List (Except String Bytes)) (chunk_size : Nat)
    (chunks : List (List Sequence)) (current : List Sequence) (total : Nat) :
    Except String (List (List Sequence) × Nat) :=
  match stream with
  | [] => .ok (if current.isEmpty then chunks else chunks ++ [current], total)
  | .error e :: _ => .error ("Failed to read record: " ++ e)
  | .ok bs :: rest =>
    let current' := current ++ [recordKey bs]
    if chunk_size ≤ current'.length then
      readChunks rest chunk_size (chunks ++ [current']) [] (total + 1)
    else
      readChunks rest chunk_size chunks current' (total + 1)

/-- `count_sequences` (main.rs lines 216-311): with `chunk_size == 0`
delegate to the sequential path; otherwise Stage 1 partitions the stream into
chunks, Stage 2 counts each chunk into a local map, and Stage 3 reduces the
local maps with `mergeMaps` from the empty-map identity (`rayon`'s
`reduce(AHashMap::new, ..)`; the scheduler's pairing order becomes a left
fold over the list order). -/
def count_sequences (stream : List (Except String Bytes)) (chunk_size : Nat) :
    Except String (FreqMap × Nat) :=
  if chunk_size = 0 then count_sequences_sequential stream
  else
    match readChunks stream chunk_size [] [] 0 with
    | .error e => .error e
    | .ok (chunks, total) =>
      let results := chunks.map count_chunk
      .ok (results.foldl (fun acc m => mergeMaps acc m) [], total)

/-- Rust's `str::parse::<usize>` on a 64-bit target: optional leading `'+'`,
then one or more ASCII digits, value below `2^64`; anything else fails. -/
def parseUsize (s : String) : Option Nat :=
  let ds := match s.data with
    | '+' :: rest => rest
    | cs => cs
  if ds.isEmpty then none
  else if ds.all Char.isDigit then
    let n := ds.foldl (fun a c => a * 10 + (c.toNat - 48)) 0
    if n < 2 ^ 64 then some n else none
  else none

/-- The process environment as read by `calculate_optimal_threads`:
the three environment variables it consults and the value of
`num_cpus::get()` (documented by the `num_cpus` crate to be at least 1). -/
structure Env where
  rayon_num_threads : Option String
  parallel_seq : Option String
  parallel : Option String
  num_cpus : Nat

/-- `calculate_optimal_threads` (main.rs lines 102-137): a positive request
wins; else a parsing `RAYON_NUM_THREADS` value is returned verbatim; else if
`PARALLEL_SEQ` is set and `PARALLEL` parses to more than 1 sibling job,
divide the cores among the jobs (floor, at least 1); else use all cores. -/
def calculate_optimal_threads (requested : Nat) (env : Env) : Nat :=
  if 0 < requested then requested
  else
    match Option.bind env.rayon_num_threads parseUsize with
    | some n => n
    | none =>
      let total_cores := env.num_cpus
      let parallel_jobs :=
        (Option.bind env.parallel_seq
          (fun _ => Option.bind env.parallel parseUsize)).getD 1
      if 1 < parallel_jobs then max (total_cores / parallel_jobs) 1
      else total_cores

/-- `calculate_chunk_size` (main.rs lines 140-155): a positive request wins;
else estimate records as `max(file_size / 100, 100)` and map into tiers. -/
def calculate_chunk_size (file_size : Nat) (requested : Nat) : Nat :=
  if 0 < requested then requested
  else
    let estimated_records := max (file_size / 100) 100
    if estimated_records ≤ 10000 then 0
    else if estimated_records ≤ 100000 then 10000
    else if estimated_records ≤ 1000000 then 25000
    else if estimated_records ≤ 10000000 then 50000
    else 100000

/-- One output row (`SequenceRecord`, output.rs lines 34-38); the `f64` RPM
value is modelled as an exact rational. -/
structure SequenceRecord where
  sequence : Sequence
  count : Nat
  rpm : Option ℚ
deriving DecidableEq

/-- `prepare_records` (main.rs lines 342-366): one row per map entry, RPM
`count / total_reads * 1_000_000` only when requested, then sort by count
descending (`sort_unstable_by(|a, b| b.count.cmp(&a.count))`; the unstable
sort's unspecified tie order is modelled by merge sort's tie order). -/
def prepare_records (counts : FreqMap) (total_reads : Nat)
    (include_rpm : Bool) : List SequenceRecord :=
  (counts.map (fun p =>
    { sequence := p.1
      count := p.2
      rpm :=
        if include_rpm then
          some ((p.2 : ℚ) / (total_reads : ℚ) * 1000000)
        else none : SequenceRecord })).mergeSort
    (fun a b => decide (b.count ≤ a.count))

/-- `process_file`'s dataflow for one file (main.rs lines 192-199): count,
then build the table; a counting error aborts before any table is built or
any output is produced. -/
def process_file (stream : List (Except String Bytes)) (chunk_size : Nat)
    (include_rpm : Bool) : Except String (List SequenceRecord) :=
  match count_sequences stream chunk_size with
  | .error e => .error e
  | .ok (counts, total) => .ok (prepare_records counts total include_rpm)

/-- The logical content of a written Parquet file: its field names and, when
present, the RPM column values. -/
structure ParquetFile where
  fields : List String
  rpmColumn : Option (List ℚ)
deriving DecidableEq

/-- `records.iter().map(|r| r.rpm.unwrap()).collect()` (output.rs line 93):
extract every row's RPM value; `none` models the panic of `unwrap` on a row
without an RPM value. -/
def collectRpm : List SequenceRecord → Option (List ℚ)
  | [] => some []
  | r :: rest =>
    match r.rpm, collectRpm rest with
    | some q, some qs => some (q :: qs)
    | _, _ => none

/-- `save_parquet` (output.rs lines 61-124), modelled as the logical file
content: the schema gains an `"rpm"` field iff the FIRST row carries an RPM
value (`records.first().and_then(|r| r.rpm).is_some()`), and in that case the
RPM column is built by unwrapping every row's RPM (`collectRpm`). -/
def save_parquet (records : List SequenceRecord) : Option ParquetFile :=
  let has_rpm := (Option.bind records.head? (fun r => r.rpm)).isSome
  let fields :=
    if has_rpm then ["sequence", "count", "rpm"] else ["sequence", "count"]
  if has_rpm then
    match collectRpm records with
    | some vals => some { fields := fields, rpmColumn := some vals }
    | none => none
  else some { fields := fields, rpmColumn := none }

/-- Render a code-point list back to a string (the CSV cell for a sequence).
-/
def seqToString (s : Sequence) : String :=
  String.mk (s.map Char.ofNat)

/-- `format!("{:.2}", x)` on the modelled rational RPM value: two decimal
places. -/
def fmt2 (q : ℚ) : String :=
  let cents : Int := round (q * 100)
  toString (cents / 100) ++ "." ++
    (if cents % 100 < 10 then "0" else "") ++ toString (cents % 100)

/-- `save_csv` (output.rs lines 127-162), modelled as the list of written
lines (header first): the header gains an `"rpm"` column iff the FIRST row
carries an RPM value, and each data line carries three fields when the row
has an RPM value and two otherwise. -/
def save_csv_rows (records : List SequenceRecord) : List (List String) :=
  let has_rpm := (Option.bind records.head? (fun r => r.rpm)).isSome
  let header :=
    if has_rpm then ["sequence", "count", "rpm"] else ["sequence", "count"]
  header :: records.map (fun r =>
    match r.rpm with
    | some q => [seqToString r.sequence, toString r.count, fmt2 q]
    | none => [seqToString r.sequence, toString r.count])

/-- A stream in which every record decodes successfully. -/
def okStream (recs : List Bytes) : List (Except String Bytes) :=
  recs.map Except.ok

instance {ε α : Type} [DecidableEq ε] [DecidableEq α] :
    DecidableEq (Except ε α) := fun x y =>
  match x, y with
  | .ok a, .ok b => decidable_of_iff (a = b) (by simp)
  | .error a, .error b => decidable_of_iff (a = b) (by simp)
  | .ok _, .error _ => isFalse (by simp)
  | .error _, .ok _ => isFalse (by simp)

/-- Well-formed frequency map: keys are unique.  Holds for every map the
program builds and is what makes the association list model a map. -/
abbrev WFMap (m : FreqMap) : Prop := (keys m).Nodup

/-- Equality of frequency maps as sets of (sequence, count) pairs — the
equality the spec uses to compare maps across execution strategies. -/
def EqPairs (m m' : FreqMap) : Prop := ∀ p : Sequence × Nat, p ∈ m ↔ p ∈ m'

/-- The Table Builder's all-or-nothing RPM policy: every row carries an RPM
value, or none does. -/
def allOrNothingRpm (t : List SequenceRecord) : Prop :=
  (∀ r ∈ t, r.rpm.isSome = true) ∨ (∀ r ∈ t, r.rpm = none)

/-! ## Basic association-list map lemmas -/

theorem getCount_of_not_mem_keys {m : FreqMap} {t : Sequence}
    (h : t ∉ keys m) : getCount m t = 0 := by
  induction m with
  | nil => rfl
  | cons kv rest ih =>
    obtain ⟨k, v⟩ := kv
    simp only [keys, List.map_cons, List.mem_cons, not_or] at h
    simp only [getCount]
    rw [if_neg (fun hk => h.1 hk.symm)]
    exact ih (by simpa [keys] using h.2)

theorem getCount_addCount (m : FreqMap) (s t : Sequence) (c : Nat) :
    getCount (addCount m s c) t = getCount m t + (if t = s then c else 0) := by
  induction m with
  | nil =>
    simp only [addCount, getCount]
    rcases eq_or_ne t s with h | h
    · subst h; simp
    · simp [h, Ne.symm h]
  | cons kv rest ih =>
    obtain ⟨k, v⟩ := kv
    simp only [addCount]
    by_cases hks : k = s
    · subst hks
      simp only [if_pos rfl, getCount]
      rcases eq_or_ne k t with hkt | hkt
      · subst hkt; simp
      · simp [hkt, Ne.symm hkt]
    · simp only [if_neg hks, getCount]
      rcases eq_or_ne k t with hkt | hkt
      · subst hkt
        simp [hks]
      · simp [hkt, ih]

theorem keys_addCount (m : FreqMap) (s : Sequence) (c : Nat) :
    keys (addCount m s c) =
      if s ∈ keys m then keys m else keys m ++ [s] := by
  induction m with
  | nil => simp [addCount, keys]
  | cons kv rest ih =>
    obtain ⟨k, v⟩ := kv
    by_cases hks : k = s
    · subst hks; simp [addCount, keys]
    · simp only [addCount, if_neg hks, keys, List.map_cons] at *
      rw [ih]
      by_cases hmem : s ∈ List.map Prod.fst rest
      · simp [hmem, Ne.symm hks]
      · simp [hmem, Ne.symm hks]

theorem mem_keys_addCount {m : FreqMap} {s t : Sequence} {c : Nat} :
    t ∈ keys (addCount m s c) ↔ t ∈ keys m ∨ t = s := by
  rw [keys_addCount]
  by_cases hmem : s ∈ keys m
  · simp only [if_pos hmem]
    constructor
    · exact Or.inl
    · rintro (h | rfl)
      · exact h
      · exact hmem
  · simp [if_neg hmem]

theorem nodup_keys_addCount {m : FreqMap} {s : Sequence} {c : Nat}
    (h : (keys m).Nodup) : (keys (addCount m s c)).Nodup := by
  rw [keys_addCount]
  by_cases hmem : s ∈ keys m
  · simpa [hmem] using h
  · simp only [if_neg hmem]
    simpa [List.nodup_append] using ⟨h, hmem⟩

theorem sumCounts_addCount (m : FreqMap) (s : Sequence) (c : Nat) :
    sumCounts (addCount m s c) = sumCounts m + c := by
  induction m with
  | nil => simp [addCount, sumCounts]
  | cons kv rest ih =>
    obtain ⟨k, v⟩ := kv
    by_cases hks : k = s
    · subst hks; simp [addCount, sumCounts]; omega
    · simp only [addCount, if_neg hks, sumCounts, List.map_cons, List.sum_cons] at *
      omega

theorem mem_iff_of_nodup_keys {m : FreqMap} (h : (keys m).Nodup)
    (s : Sequence) (c : Nat) :
    (s, c) ∈ m ↔ s ∈ keys m ∧ getCount m s = c := by
  induction m with
  | nil => simp [keys, getCount]
  | cons kv rest ih =>
    obtain ⟨k, v⟩ := kv
    simp only [keys, List.map_cons, List.nodup_cons] at h
    rcases eq_or_ne k s with hks | hks
    · subst hks
      simp only [List.mem_cons, Prod.mk.injEq, true_and, keys, List.map_cons,
        getCount, if_pos rfl, eq_self_iff_true, or_true, true_or]
      constructor
      · rintro (rfl | hp)
        · simp
        · exact absurd (List.mem_map_of_mem Prod.fst hp) h.1
      · rintro ⟨-, rfl⟩
        exact Or.inl rfl
    · simp only [List.mem_cons, Prod.mk.injEq, keys, List.map_cons,
        getCount, if_neg hks]
      rw [ih h.2]
      constructor
      · rintro (⟨h1, h2⟩ | hp)
        · exact absurd h1.symm hks
        · exact ⟨Or.inr hp.1, hp.2⟩
      · rintro ⟨hk | hk, hc⟩
        · exact absurd hk.symm hks
        · exact Or.inr ⟨hk, hc⟩

/-! ## Folding `incr` over a list of sequences (one chunk, or the whole
sequential stream) -/

theorem getCount_foldl_incr (l : List Sequence) (m : FreqMap) (t : Sequence) :
    getCount (l.foldl incr m) t = getCount m t + l.count t := by
  induction l generalizing m with
  | nil => simp
  | cons s rest ih =>
    simp only [List.foldl_cons, ih, incr, getCount_addCount, List.count_cons]
    rcases eq_or_ne t s with h | h
    · subst h
      simp
      omega
    · simp [beq_iff_eq, h, Ne.symm h]

theorem mem_keys_foldl_incr (l : List Sequence) (m : FreqMap) (t : Sequence) :
    t ∈ keys (l.foldl incr m) ↔ t ∈ keys m ∨ t ∈ l := by
  induction l generalizing m with
  | nil => simp
  | cons s rest ih =>
    simp only [List.foldl_cons, ih, incr, mem_keys_addCount, List.mem_cons]
    tauto

theorem nodup_keys_foldl_incr (l : List Sequence) (m : FreqMap)
    (h : (keys m).Nodup) : (keys (l.foldl incr m)).Nodup := by
  induction l generalizing m with
  | nil => exact h
  | cons s rest ih => exact ih _ (nodup_keys_addCount h)

theorem sumCounts_foldl_incr (l : List Sequence) (m : FreqMap) :
    sumCounts (l.foldl incr m) = sumCounts m + l.length := by
  induction l generalizing m with
  | nil => simp
  | cons s rest ih =>
    simp only [List.foldl_cons, ih, incr, sumCounts_addCount, List.length_cons]
    omega

theorem count_chunk_eq_foldl (chunk : List Sequence) :
    count_chunk chunk = chunk.foldl incr [] := rfl

/-! ## The Stage 3 merge -/

theorem mergeMaps_nil (a : FreqMap) : mergeMaps a [] = a := rfl

theorem sumCounts_mergeMaps (a b : FreqMap) :
    sumCounts (mergeMaps a b) = sumCounts a + sumCounts b := by
  induction b generalizing a with
  | nil => simp [mergeMaps, sumCounts]
  | cons p rest ih =>
    simp only [mergeMaps, List.foldl_cons] at *
    rw [ih, sumCounts_addCount]
    simp [sumCounts]
    omega

theorem mem_keys_mergeMaps (a b : FreqMap) (t : Sequence) :
    t ∈ keys (mergeMaps a b) ↔ t ∈ keys a ∨ t ∈ keys b := by
  induction b generalizing a with
  | nil => simp [mergeMaps, keys]
  | cons p rest ih =>
    simp only [mergeMaps, List.foldl_cons] at *
    rw [ih, mem_keys_addCount]
    simp only [keys, List.map_cons, List.mem_cons]
    tauto

theorem nodup_keys_mergeMaps {a : FreqMap} (b : FreqMap)
    (h : (keys a).Nodup) : (keys (mergeMaps a b)).Nodup := by
  induction b generalizing a with
  | nil => exact h
  | cons p rest ih =>
    simp only [mergeMaps, List.foldl_cons] at *
    exact ih (nodup_keys_addCount h)

theorem getCount_mergeMaps (a : FreqMap) {b : FreqMap} (t : Sequence)
    (hb : (keys b).Nodup) :
    getCount (mergeMaps a b) t = getCount a t + getCount b t := by
  induction b generalizing a with
  | nil => simp [mergeMaps, getCount]
  | cons p rest ih =>
    obtain ⟨k, v⟩ := p
    simp only [keys, List.map_cons, List.nodup_cons] at hb
    simp only [mergeMaps, List.foldl_cons] at *
    rw [ih _ hb.2, getCount_addCount]
    simp only [getCount]
    rcases eq_or_ne k t with hkt | hkt
    · subst hkt
      rw [getCount_of_not_mem_keys hb.1]
      simp
    · have h2 : ¬ t = k := fun h => hkt h.symm
      simp [hkt, h2]

/-! ## Folding the merge over the per-chunk maps (the Stage 3 reduction) -/

theorem getCount_foldl_mergeMaps (l : List FreqMap) (acc : FreqMap)
    (t : Sequence) (h : ∀ m ∈ l, (keys m).Nodup) :
    getCount (l.foldl (fun acc m => mergeMaps acc m) acc) t =
      getCount acc t + (l.map (fun m => getCount m t)).sum := by
  induction l generalizing acc with
  | nil => simp
  | cons m rest ih =>
    simp only [List.foldl_cons, List.map_cons, List.sum_cons]
    rw [ih _ (fun m hm => h m (List.mem_cons_of_mem _ hm)),
      getCount_mergeMaps _ _ (h m (List.mem_cons_self _ _))]
    omega

theorem mem_keys_foldl_mergeMaps (l : List FreqMap) (acc : FreqMap)
    (t : Sequence) :
    t ∈ keys (l.foldl (fun acc m => mergeMaps acc m) acc) ↔
      t ∈ keys acc ∨ ∃ m ∈ l, t ∈ keys m := by
  induction l generalizing acc with
  | nil => simp
  | cons m rest ih =>
    simp only [List.foldl_cons, ih, mem_keys_mergeMaps, List.mem_cons]
    constructor
    · rintro ((h | h) | ⟨m', hm', ht⟩)
      · exact Or.inl h
      · exact Or.inr ⟨m, Or.inl rfl, h⟩
      · exact Or.inr ⟨m', Or.inr hm', ht⟩
    · rintro (h | ⟨m', (rfl | hm'), ht⟩)
      · exact Or.inl (Or.inl h)
      · exact Or.inl (Or.inr ht)
      · exact Or.inr ⟨m', hm', ht⟩

theorem nodup_keys_foldl_mergeMaps (l : List FreqMap) (acc : FreqMap)
    (h : (keys acc).Nodup) :
    (keys (l.foldl (fun acc m => mergeMaps acc m) acc)).Nodup := by
  induction l generalizing acc with
  | nil => exact h
  | cons m rest ih => exact ih _ (nodup_keys_mergeMaps _ h)

theorem sumCounts_foldl_mergeMaps (l : List FreqMap) (acc : FreqMap) :
    sumCounts (l.foldl (fun acc m => mergeMaps acc m) acc) =
      sumCounts acc + (l.map sumCounts).sum := by
  induction l generalizing acc with
  | nil => simp
  | cons m rest ih =>
    simp only [List.foldl_cons, List.map_cons, List.sum_cons]
    rw [ih, sumCounts_mergeMaps]
    omega

/-! ## The reading loops -/

theorem seqLoop_ok (recs : List Bytes) (m : FreqMap) (n : Nat) :
    seqLoop (okStream recs) m n =
      .ok ((recs.map recordKey).foldl incr m, n + recs.length) := by
  induction recs generalizing m n with
  | nil => simp [okStream, seqLoop]
  | cons bs rest ih =>
    simp only [okStream, List.map_cons, seqLoop, List.foldl_cons] at *
    rw [ih]
    congr 2
    simp only [List.length_cons]
    omega

theorem seqLoop_error (pre : List Bytes) (e : String)
    (suf : List (Except String Bytes)) (m : FreqMap) (n : Nat) :
    seqLoop (okStream pre ++ .error e :: suf) m n =
      .error ("Failed to read record: " ++ e) := by
  induction pre generalizing m n with
  | nil => simp [okStream, seqLoop]
  | cons bs rest ih =>
    simp only [okStream, List.map_cons, List.cons_append, seqLoop]
    exact ih _ _

theorem readChunks_ok (recs : List Bytes) (cs : Nat)
    (chunks : List (List Sequence)) (current : List Sequence) (total : Nat) :
    ∃ C, readChunks (okStream recs) cs chunks current total =
        .ok (C, total + recs.length) ∧
      C.flatten = chunks.flatten ++ current ++ recs.map recordKey := by
  induction recs generalizing chunks current total with
  | nil =>
    refine ⟨if current.isEmpty then chunks else chunks ++ [current], ?_, ?_⟩
    · simp [okStream, readChunks]
    · by_cases h : current.isEmpty
      · simp [h, List.isEmpty_iff.mp h]
      · simp [h, List.flatten_append]
  | cons bs rest ih =>
    simp only [okStream, List.map_cons, readChunks]
    by_cases h : cs ≤ (current ++ [recordKey bs]).length
    · obtain ⟨C, hC, hflat⟩ :=
        ih (chunks ++ [current ++ [recordKey bs]]) [] (total + 1)
      simp only [okStream] at hC
      refine ⟨C, ?_, ?_⟩
      · simp only [if_pos h]
        rw [hC]
        congr 2
        simp only [List.length_cons]
        omega
      · rw [hflat]
        simp [List.flatten_append]
    · obtain ⟨C, hC, hflat⟩ := ih chunks (current ++ [recordKey bs]) (total + 1)
      simp only [okStream] at hC
      refine ⟨C, ?_, ?_⟩
      · simp only [if_neg h]
        rw [hC]
        congr 2
        simp only [List.length_cons]
        omega
      · rw [hflat]
        simp

theorem readChunks_error (pre : List Bytes) (e : String)
    (suf : List (Except String Bytes)) (cs : Nat)
    (chunks : List (List Sequence)) (current : List Sequence) (total : Nat) :
    readChunks (okStream pre ++ .error e :: suf) cs chunks current total =
      .error ("Failed to read record: " ++ e) := by
  induction pre generalizing chunks current total with
  | nil => simp [okStream, readChunks]
  | cons bs rest ih =>
    simp only [okStream, List.map_cons, List.cons_append, readChunks]
    by_cases h : cs ≤ (current ++ [recordKey bs]).length
    · simp only [if_pos h]
      exact ih _ _ _
    · simp only [if_neg h]
      exact ih _ _ _

/-! ## The two counting paths on an error-free stream -/

theorem count_sequences_sequential_ok (recs : List Bytes) :
    count_sequences_sequential (okStream recs) =
      .ok ((recs.map recordKey).foldl incr [], recs.length) := by
  rw [count_sequences_sequential, seqLoop_ok]
  simp

theorem count_sequences_chunked_ok (recs : List Bytes) (cs : Nat)
    (hcs : cs ≠ 0) :
    ∃ C : List (List Sequence), count_sequences (okStream recs) cs =
        .ok ((C.map count_chunk).foldl (fun acc m => mergeMaps acc m) [],
          recs.length) ∧
      C.flatten = recs.map recordKey := by
  obtain ⟨C, hC, hflat⟩ := readChunks_ok recs cs [] [] 0
  refine ⟨C, ?_, by simpa using hflat⟩
  rw [count_sequences, if_neg hcs, hC]
  simp

/-! ## The maps computed by each path, characterised by key set and counts -/

theorem seq_map_getCount (l : List Sequence) (t : Sequence) :
    getCount (l.foldl incr []) t = l.count t := by
  simpa [getCount] using getCount_foldl_incr l [] t

theorem seq_map_nodup (l : List Sequence) :
    (keys (l.foldl incr [])).Nodup := by
  exact nodup_keys_foldl_incr l [] (by simp [keys])

theorem seq_map_mem_keys (l : List Sequence) (t : Sequence) :
    t ∈ keys (l.foldl incr []) ↔ t ∈ l := by
  simpa [keys] using mem_keys_foldl_incr l [] t

theorem seq_map_sum (l : List Sequence) :
    sumCounts (l.foldl incr []) = l.length := by
  simpa [sumCounts] using sumCounts_foldl_incr l []

theorem merge_fold_getCount (C : List (List Sequence)) (t : Sequence) :
    getCount ((C.map count_chunk).foldl (fun acc m => mergeMaps acc m) []) t =
      C.flatten.count t := by
  rw [getCount_foldl_mergeMaps]
  · simp only [List.map_map, List.count_flatten, getCount]
    have : (fun m => getCount m t) ∘ count_chunk =
        fun c : List Sequence => c.count t := by
      funext c
      rw [Function.comp_apply, count_chunk_eq_foldl, seq_map_getCount]
    rw [this]
    simp
  · intro m hm
    obtain ⟨c, -, rfl⟩ := List.mem_map.mp hm
    rw [count_chunk_eq_foldl]
    exact seq_map_nodup c

theorem merge_fold_mem_keys (C : List (List Sequence)) (t : Sequence) :
    t ∈ keys ((C.map count_chunk).foldl (fun acc m => mergeMaps acc m) []) ↔
      t ∈ C.flatten := by
  rw [mem_keys_foldl_mergeMaps]
  simp only [keys, List.map_nil, List.not_mem_nil, false_or, List.mem_map,
    List.mem_flatten]
  constructor
  · rintro ⟨m, ⟨c, hc, rfl⟩, ht⟩
    refine ⟨c, hc, ?_⟩
    have := (seq_map_mem_keys c t).mp (by
      rw [← count_chunk_eq_foldl]
      simpa [keys] using ht)
    exact this
  · rintro ⟨c, hc, ht⟩
    refine ⟨count_chunk c, ⟨c, hc, rfl⟩, ?_⟩
    rw [count_chunk_eq_foldl]
    simpa [keys] using (seq_map_mem_keys c t).mpr ht

theorem merge_fold_nodup (C : List (List Sequence)) :
    (keys ((C.map count_chunk).foldl (fun acc m => mergeMaps acc m) [])).Nodup := by
  exact nodup_keys_foldl_mergeMaps _ [] (by simp [keys])

theorem merge_fold_sum (C : List (List Sequence)) :
    sumCounts ((C.map count_chunk).foldl (fun acc m => mergeMaps acc m) []) =
      C.flatten.length := by
  rw [sumCounts_foldl_mergeMaps]
  simp only [List.map_map, List.length_flatten, sumCounts, List.map_nil,
    List.sum_nil, Nat.zero_add]
  have : sumCounts ∘ count_chunk = fun c : List Sequence => c.length := by
    funext c
    rw [Function.comp_apply, count_chunk_eq_foldl, seq_map_sum]
  rw [this]

theorem eqPairs_of_nodup_of_eq {m m' : FreqMap} (hm : (keys m).Nodup)
    (hm' : (keys m').Nodup) (hkeys : ∀ t, t ∈ keys m ↔ t ∈ keys m')
    (hcount : ∀ t, getCount m t = getCount m' t) : EqPairs m m' := by
  intro p
  obtain ⟨s, c⟩ := p
  rw [mem_iff_of_nodup_keys hm, mem_iff_of_nodup_keys hm', hkeys, hcount]

/-! ## The lossy decoder on plain ASCII input -/

theorem utf8Go_ascii (fuel : Nat) (l : List Nat) (hfuel : l.length ≤ fuel)
    (h : ∀ b ∈ l, b < 128) : utf8Go fuel l = l := by
  induction fuel generalizing l with
  | zero =>
    cases l with
    | nil => rfl
    | cons b rest => simp at hfuel
  | succ fuel ih =>
    cases l with
    | nil => rfl
    | cons b rest =>
      have hb : b < 128 := h b (List.mem_cons_self _ _)
      simp only [utf8Go, utf8Step, if_pos hb, List.drop_succ_cons,
        List.drop_zero]
      rw [ih rest (by simpa using hfuel)
        (fun x hx => h x (List.mem_cons_of_mem _ hx))]

theorem utf8DecodeLossy_ascii (l : List Nat) (h : ∀ b ∈ l, b < 128) :
    utf8DecodeLossy l = l :=
  utf8Go_ascii l.length l le_rfl h

/-! ## Table Builder and Serializer helper lemmas -/

theorem mem_prepare_records {counts : FreqMap} {total : Nat} {b : Bool}
    {r : SequenceRecord} :
    r ∈ prepare_records counts total b ↔
      ∃ p ∈ counts,
        r = { sequence := p.1, count := p.2,
              rpm := (if b then some ((p.2 : ℚ) / (total : ℚ) * 1000000)
                      else none) } := by
  rw [prepare_records, (List.mergeSort_perm _ _).mem_iff, List.mem_map]
  constructor
  · rintro ⟨p, hp, rfl⟩
    exact ⟨p, hp, rfl⟩
  · rintro ⟨p, hp, rfl⟩
    exact ⟨p, hp, rfl⟩

theorem length_prepare_records (counts : FreqMap) (total : Nat) (b : Bool) :
    (prepare_records counts total b).length = counts.length := by
  rw [prepare_records, List.length_mergeSort, List.length_map]

theorem chain_mergeSort_desc (l : List SequenceRecord) :
    (l.mergeSort (fun r1 r2 => decide (r2.count ≤ r1.count))).Chain'
      (fun r1 r2 => r2.count ≤ r1.count) := by
  have h := @List.sorted_mergeSort SequenceRecord
    (fun r1 r2 => decide (r2.count ≤ r1.count))
    (fun a b c hab hbc => by
      simp only [decide_eq_true_eq] at *
      omega)
    (fun a b => by
      simp only [Bool.or_eq_true, decide_eq_true_eq]
      omega)
    l
  exact (List.Pairwise.imp (fun hab => by simpa using hab) h).chain'

theorem chain_prepare_records (counts : FreqMap) (total : Nat) (b : Bool) :
    (prepare_records counts total b).Chain'
      (fun r1 r2 => r2.count ≤ r1.count) := by
  rw [prepare_records]
  exact chain_mergeSort_desc _

theorem prepare_records_homogeneous (counts : FreqMap) (total : Nat)
    (b : Bool) : allOrNothingRpm (prepare_records counts total b) := by
  cases b
  · right
    intro r hr
    obtain ⟨p, hp, rfl⟩ := mem_prepare_records.mp hr
    simp
  · left
    intro r hr
    obtain ⟨p, hp, rfl⟩ := mem_prepare_records.mp hr
    simp

theorem collectRpm_isSome {l : List SequenceRecord}
    (h : ∀ r ∈ l, r.rpm.isSome = true) : (collectRpm l).isSome = true := by
  induction l with
  | nil => rfl
  | cons r rest ih =>
    obtain ⟨q, hq⟩ :=
      Option.isSome_iff_exists.mp (h r (List.mem_cons_self _ _))
    obtain ⟨ys, hys⟩ := Option.isSome_iff_exists.mp
      (ih (fun x hx => h x (List.mem_cons_of_mem _ hx)))
    simp [collectRpm, hq, hys]

theorem save_parquet_isSome (records : List SequenceRecord)
    (h : allOrNothingRpm records) : (save_parquet records).isSome = true := by
  cases records with
  | nil => rfl
  | cons r0 rest =>
    rcases h with hall | hnone
    · obtain ⟨q0, hq0⟩ :=
        Option.isSome_iff_exists.mp (hall r0 (List.mem_cons_self _ _))
      obtain ⟨vals, hvals⟩ := Option.isSome_iff_exists.mp (collectRpm_isSome hall)
      simp [save_parquet, hq0, hvals]
    · have h0 : r0.rpm = none := hnone r0 (List.mem_cons_self _ _)
      simp [save_parquet, h0]

theorem save_csv_rows_length (records : List SequenceRecord)
    (h : allOrNothingRpm records) (L : List String)
    (hL : L ∈ save_csv_rows records) :
    L.length =
      if (Option.bind records.head? (fun r => r.rpm)).isSome then 3
      else 2 := by
  simp only [save_csv_rows] at hL
  rcases List.mem_cons.mp hL with rfl | hL
  · split
    · rfl
    · rfl
  · obtain ⟨r, hrm, rfl⟩ := List.mem_map.mp hL
    obtain ⟨r0, rest, rfl⟩ :=
      List.exists_cons_of_ne_nil (List.ne_nil_of_mem hrm)
    rcases h with hall | hnone
    · obtain ⟨q, hq⟩ := Option.isSome_iff_exists.mp (hall r hrm)
      obtain ⟨q0, hq0⟩ :=
        Option.isSome_iff_exists.mp (hall r0 (List.mem_cons_self _ _))
      simp [hq, hq0]
    · have h1 : r.rpm = none := hnone r hrm
      have h0 : r0.rpm = none := hnone r0 (List.mem_cons_self _ _)
      simp [h1, h0]

/-! ## Claim theorems -/

/-- C1: for every input stream (given by its list of raw records, all of
which decode) and for both counting paths — `count_sequences` with any
`chunk_size` (0 selects the Sequential Counter, any value >= 1 the Chunked
Aggregator) and `count_sequences_sequential` itself — counting succeeds, the
returned total equals the number of records read from the stream, and the
sum of all counts in the returned frequency map equals that total. -/
theorem C1_conservation (recs : List Bytes) (cs : Nat) :
    (∃ m : FreqMap,
      count_sequences (okStream recs) cs = .ok (m, recs.length) ∧
      sumCounts m = recs.length) ∧
    (∃ m : FreqMap,
      count_sequences_sequential (okStream recs) = .ok (m, recs.length) ∧
      sumCounts m = recs.length) := by
  have hseq : count_sequences_sequential (okStream recs) =
      .ok ((recs.map recordKey).foldl incr [], recs.length) :=
    count_sequences_sequential_ok recs
  have hsum : sumCounts ((recs.map recordKey).foldl incr []) = recs.length := by
    rw [seq_map_sum, List.length_map]
  refine ⟨?_, ⟨_, hseq, hsum⟩⟩
  by_cases hcs : cs = 0
  · subst hcs
    have heq : count_sequences (okStream recs) 0 =
        count_sequences_sequential (okStream recs) := by
      simp [count_sequences]
    exact ⟨_, heq.trans hseq, hsum⟩
  · obtain ⟨C, hC, hflat⟩ := count_sequences_chunked_ok recs cs hcs
    refine ⟨_, hC, ?_⟩
    rw [merge_fold_sum, hflat, List.length_map]

/-- C2: for a fixed error-free input stream and any chunk_size >= 1, the map
produced by the Chunked Aggregator equals, as a set of (sequence, count)
pairs, the map produced by the Sequential Counter on the same stream. -/
theorem C2_chunk_invariance (recs : List Bytes) (cs : Nat) (hcs : 1 ≤ cs) :
    ∃ m m' : FreqMap,
      count_sequences (okStream recs) cs = .ok (m, recs.length) ∧
      count_sequences_sequential (okStream recs) = .ok (m', recs.length) ∧
      EqPairs m m' := by
  have hcs0 : cs ≠ 0 := by omega
  obtain ⟨C, hC, hflat⟩ := count_sequences_chunked_ok recs cs hcs0
  refine ⟨_, _, hC, count_sequences_sequential_ok recs, ?_⟩
  apply eqPairs_of_nodup_of_eq (merge_fold_nodup C) (seq_map_nodup _)
  · intro t
    rw [merge_fold_mem_keys, seq_map_mem_keys, hflat]
  · intro t
    rw [merge_fold_getCount, seq_map_getCount, hflat]

/-- Witness for C2 on the concrete stream AA, AA, B with chunk size 2. -/
theorem C2_chunk_invariance_witness :
    1 ≤ 2 ∧
    ∃ m m' : FreqMap,
      count_sequences (okStream [[65], [65], [66]]) 2 = .ok (m, 3) ∧
      count_sequences_sequential (okStream [[65], [65], [66]]) =
        .ok (m', 3) ∧
      EqPairs m m' :=
  ⟨by decide, C2_chunk_invariance [[65], [65], [66]] 2 (by decide)⟩

/-- C3: the Stage 3 merge is, on well-formed frequency maps and up to
equality as a set of (sequence, count) pairs, associative and commutative
with the empty map as identity; consequently the fold of the merge over a
list of partial maps yields the same pair set for every ordering of that
list — the property that validates the scheduler's arbitrary reduction
order. -/
theorem C3_merge_reduction (a b c : FreqMap) (l l2 : List FreqMap)
    (ha : WFMap a) (hb : WFMap b) (hc : WFMap c)
    (hperm : l.Perm l2) (hl : ∀ m ∈ l, WFMap m) :
    EqPairs (mergeMaps (mergeMaps a b) c) (mergeMaps a (mergeMaps b c)) ∧
    EqPairs (mergeMaps a b) (mergeMaps b a) ∧
    EqPairs (mergeMaps [] a) a ∧
    mergeMaps a [] = a ∧
    EqPairs (l.foldl (fun acc m => mergeMaps acc m) [])
      (l2.foldl (fun acc m => mergeMaps acc m) []) := by
  refine ⟨?_, ?_, ?_, rfl, ?_⟩
  · apply eqPairs_of_nodup_of_eq
      (nodup_keys_mergeMaps c (nodup_keys_mergeMaps b ha))
      (nodup_keys_mergeMaps (mergeMaps b c) ha)
    · intro t
      rw [mem_keys_mergeMaps, mem_keys_mergeMaps, mem_keys_mergeMaps,
        mem_keys_mergeMaps]
      tauto
    · intro t
      rw [getCount_mergeMaps (mergeMaps a b) t hc,
        getCount_mergeMaps a t hb,
        getCount_mergeMaps a t (nodup_keys_mergeMaps c hb),
        getCount_mergeMaps b t hc]
      omega
  · apply eqPairs_of_nodup_of_eq (nodup_keys_mergeMaps b ha)
      (nodup_keys_mergeMaps a hb)
    · intro t
      rw [mem_keys_mergeMaps, mem_keys_mergeMaps]
      tauto
    · intro t
      rw [getCount_mergeMaps a t hb, getCount_mergeMaps b t ha]
      omega
  · apply eqPairs_of_nodup_of_eq (nodup_keys_mergeMaps a (by simp [keys])) ha
    · intro t
      rw [mem_keys_mergeMaps]
      simp [keys]
    · intro t
      rw [getCount_mergeMaps [] t ha]
      simp [getCount]
  · have hl2 : ∀ m ∈ l2, WFMap m := fun m hm => hl m (hperm.symm.subset hm)
    apply eqPairs_of_nodup_of_eq
      (nodup_keys_foldl_mergeMaps l [] (by simp [keys]))
      (nodup_keys_foldl_mergeMaps l2 [] (by simp [keys]))
    · intro t
      rw [mem_keys_foldl_mergeMaps, mem_keys_foldl_mergeMaps]
      simp only [keys, List.map_nil, List.not_mem_nil, false_or]
      constructor
      · rintro ⟨m, hm, ht⟩
        exact ⟨m, hperm.subset hm, ht⟩
      · rintro ⟨m, hm, ht⟩
        exact ⟨m, hperm.symm.subset hm, ht⟩
    · intro t
      rw [getCount_foldl_mergeMaps l [] t hl,
        getCount_foldl_mergeMaps l2 [] t hl2,
        (hperm.map (fun m => getCount m t)).sum_eq]

/-- Witness for C3 on concrete well-formed maps and a concrete reordering,
checking commutativity through the theorem. -/
theorem C3_merge_reduction_witness :
    (WFMap [([65], 2)] ∧ WFMap [([65], 1), ([66], 3)] ∧ WFMap [([67], 5)] ∧
      ([[([65], 2)], [([66], 3)]] : List FreqMap).Perm
        [[([66], 3)], [([65], 2)]] ∧
      (∀ m ∈ ([[([65], 2)], [([66], 3)]] : List FreqMap), WFMap m)) ∧
    EqPairs (mergeMaps [([65], 2)] [([65], 1), ([66], 3)])
      (mergeMaps [([65], 1), ([66], 3)] [([65], 2)]) :=
  ⟨⟨by decide, by decide, by decide, by decide, by decide⟩,
    (C3_merge_reduction [([65], 2)] [([65], 1), ([66], 3)] [([67], 5)]
      [[([65], 2)], [([66], 3)]] [[([66], 3)], [([65], 2)]]
      (by decide) (by decide) (by decide) (by decide) (by decide)).2.1⟩

/-- C4 is refuted as stated: with requested = 0 and the environment
thread-count override present as the string "0" (which parses as the integer
0), the resolver returns 0, not a value >= 1. -/
theorem C4_counterexample :
    ¬ (1 ≤ calculate_optimal_threads 0
        { rayon_num_threads := some "0", parallel_seq := none,
          parallel := none, num_cpus := 8 }) := by decide

/-- C4 (amended): the resolver always terminates; a positive requested count
is returned verbatim; otherwise a present environment override that parses
as an integer is returned verbatim — which may be 0, the one case where the
result is not >= 1; otherwise, when sibling-job evidence gives a job count
> 1, the result is max(total_cores / sibling_jobs, 1) (floor division);
otherwise it is the number of available cores (which `num_cpus` documents to
be >= 1).  The result is >= 1 in every case except an override parsing to 0.
-/
theorem C4_thread_resolver (requested : Nat) (env : Env)
    (hcpu : 1 ≤ env.num_cpus) :
    (0 < requested → calculate_optimal_threads requested env = requested) ∧
    (requested = 0 →
      ∀ n, Option.bind env.rayon_num_threads parseUsize = some n →
        calculate_optimal_threads requested env = n) ∧
    (requested = 0 → Option.bind env.rayon_num_threads parseUsize = none →
      (1 < (Option.bind env.parallel_seq
          (fun _ => Option.bind env.parallel parseUsize)).getD 1 →
        calculate_optimal_threads requested env =
          max (env.num_cpus /
            (Option.bind env.parallel_seq
              (fun _ => Option.bind env.parallel parseUsize)).getD 1) 1) ∧
      ((Option.bind env.parallel_seq
          (fun _ => Option.bind env.parallel parseUsize)).getD 1 ≤ 1 →
        calculate_optimal_threads requested env = env.num_cpus)) ∧
    (1 ≤ calculate_optimal_threads requested env ∨
      (requested = 0 ∧
        Option.bind env.rayon_num_threads parseUsize = some 0)) := by
  refine ⟨?_, ?_, ?_, ?_⟩
  · intro h
    simp [calculate_optimal_threads, h]
  · rintro rfl n hn
    simp [calculate_optimal_threads, hn]
  · rintro rfl hnone
    constructor
    · intro hj
      simp [calculate_optimal_threads, hnone, hj]
    · intro hj
      have hj2 : ¬ 1 < (Option.bind env.parallel_seq
          (fun _ => Option.bind env.parallel parseUsize)).getD 1 := by omega
      simp [calculate_optimal_threads, hnone, hj2]
  · by_cases hreq : 0 < requested
    · left
      simp only [calculate_optimal_threads, if_pos hreq]
      omega
    · have h0 : requested = 0 := by omega
      subst h0
      cases hrn : Option.bind env.rayon_num_threads parseUsize with
      | none =>
        left
        simp only [calculate_optimal_threads, hrn, lt_irrefl, if_false]
        split
        · exact le_max_right _ _
        · exact hcpu
      | some n =>
        cases n with
        | zero => exact Or.inr ⟨rfl, rfl⟩
        | succ k =>
          left
          simp only [calculate_optimal_threads, hrn, lt_irrefl, if_false]
          omega

/-- Witness for C4 (amended) at Scenario E: requested 0, no override,
sibling-count evidence of 4 jobs on an 8-core machine resolves to 2. -/
theorem C4_thread_resolver_witness :
    1 ≤ Env.num_cpus { rayon_num_threads := none, parallel_seq := some "1",
                       parallel := some "4", num_cpus := 8 } ∧
    calculate_optimal_threads 0
      { rayon_num_threads := none, parallel_seq := some "1",
        parallel := some "4", num_cpus := 8 } = 2 := by
  refine ⟨by decide, ?_⟩
  have h := C4_thread_resolver 0
    { rayon_num_threads := none, parallel_seq := some "1",
      parallel := some "4", num_cpus := 8 } (by decide)
  have h3 := (h.2.2.1 rfl (by decide)).1 (by decide)
  rw [h3]
  decide

/-- C5 is refuted as stated: the counting core keys each record by
`String::from_utf8_lossy` of its bytes, which replaces invalid UTF-8 with
U+FFFD; the distinct byte strings [0xFF] and [0xFE] therefore share one
frequency-map key (one entry with count 2, not two distinct entries). -/
theorem C5_counterexample :
    ([255] : Bytes) ≠ [254] ∧ recordKey [255] = recordKey [254] ∧
    count_sequences_sequential (okStream [[255], [254]]) =
      .ok ([([0xFFFD], 2)], 2) := by decide

/-- C5 (amended): records are counted under the same key iff their lossy
UTF-8 decodings coincide; on records made of plain ASCII bytes — the
intended nucleotide/protein alphabet — the decoding is the identity, so
equality of keys is exact byte-for-byte equality and no normalization
occurs. -/
theorem C5_ascii_exact (b1 b2 : Bytes)
    (h1 : ∀ x ∈ b1, x < 128) (h2 : ∀ x ∈ b2, x < 128) :
    (recordKey b1 = recordKey b2 ↔ b1 = b2) ∧ recordKey b1 = b1 := by
  have e1 : recordKey b1 = b1 := utf8DecodeLossy_ascii b1 h1
  have e2 : recordKey b2 = b2 := utf8DecodeLossy_ascii b2 h2
  rw [recordKey] at e1 e2
  rw [recordKey, recordKey, e1, e2]
  exact ⟨Iff.rfl, rfl⟩

/-- Witness for C5 (amended) on the ASCII records "AC" and "A". -/
theorem C5_ascii_exact_witness :
    (∀ x ∈ ([65, 67] : Bytes), x < 128) ∧
    (∀ x ∈ ([65] : Bytes), x < 128) ∧
    ((recordKey [65, 67] = recordKey [65] ↔ ([65, 67] : Bytes) = [65]) ∧
      recordKey [65, 67] = [65, 67]) :=
  ⟨by decide, by decide, C5_ascii_exact [65, 67] [65] (by decide) (by decide)⟩

/-- C6: the Chunk-Size Planner returns a nonzero request unchanged;
otherwise it computes estimated_records = max(byte_size / 100, 100) and maps
it into the five tiers; in particular byte_size 50 yields 0 (sequential) and
byte_size 2,000,000 yields 10,000. -/
theorem C6_chunk_size_planner (fs req : Nat) :
    (0 < req → calculate_chunk_size fs req = req) ∧
    (req = 0 →
      (max (fs / 100) 100 ≤ 10000 → calculate_chunk_size fs req = 0) ∧
      (10001 ≤ max (fs / 100) 100 → max (fs / 100) 100 ≤ 100000 →
        calculate_chunk_size fs req = 10000) ∧
      (100001 ≤ max (fs / 100) 100 → max (fs / 100) 100 ≤ 1000000 →
        calculate_chunk_size fs req = 25000) ∧
      (1000001 ≤ max (fs / 100) 100 → max (fs / 100) 100 ≤ 10000000 →
        calculate_chunk_size fs req = 50000) ∧
      (10000001 ≤ max (fs / 100) 100 →
        calculate_chunk_size fs req = 100000)) ∧
    calculate_chunk_size 50 0 = 0 ∧
    calculate_chunk_size 2000000 0 = 10000 := by
  refine ⟨?_, ?_, by decide, by decide⟩
  · intro h
    simp [calculate_chunk_size, h]
  · rintro rfl
    refine ⟨?_, ?_, ?_, ?_, ?_⟩
    · intro h1
      simp only [calculate_chunk_size, lt_irrefl, if_false]
      rw [if_pos h1]
    · intro h1 h2
      simp only [calculate_chunk_size, lt_irrefl, if_false]
      rw [if_neg (by omega), if_pos h2]
    · intro h1 h2
      simp only [calculate_chunk_size, lt_irrefl, if_false]
      rw [if_neg (by omega), if_neg (by omega), if_pos h2]
    · intro h1 h2
      simp only [calculate_chunk_size, lt_irrefl, if_false]
      rw [if_neg (by omega), if_neg (by omega), if_neg (by omega), if_pos h2]
    · intro h1
      simp only [calculate_chunk_size, lt_irrefl, if_false]
      rw [if_neg (by omega), if_neg (by omega), if_neg (by omega),
        if_neg (by omega)]

/-- Witness for C6: a nonzero request passes through; byte_size 2,000,000
lands in the 10,000 tier via the theorem's tier clause. -/
theorem C6_chunk_size_planner_witness :
    (0 < 7 ∧ calculate_chunk_size 123 7 = 7) ∧
    (10001 ≤ max (2000000 / 100) 100 ∧ max (2000000 / 100) 100 ≤ 100000 ∧
      calculate_chunk_size 2000000 0 = 10000) :=
  ⟨⟨by decide, (C6_chunk_size_planner 123 7).1 (by decide)⟩,
    ⟨by decide, by decide,
      ((C6_chunk_size_planner 2000000 0).2.1 rfl).2.1 (by decide)
        (by decide)⟩⟩

/-- C7: when RPM is requested, every row the Table Builder produces carries
abundance count / total_count * 1_000_000 (the f64 computation modelled by
exact rationals); when RPM is not requested no row carries a value; and
when zero records were read, the frequency map returned by counting is empty
and the produced Table is empty, so no abundance is computed and no division
by zero occurs. -/
theorem C7_rpm (counts : FreqMap) (total : Nat) (r : SequenceRecord)
    (recs : List Bytes) (cs : Nat) (m0 : FreqMap) (b : Bool) :
    (r ∈ prepare_records counts total true →
      r.rpm = some ((r.count : ℚ) / (total : ℚ) * 1000000)) ∧
    (r ∈ prepare_records counts total false → r.rpm = none) ∧
    (count_sequences (okStream recs) cs = .ok (m0, 0) →
      m0 = [] ∧ prepare_records m0 0 b = []) := by
  refine ⟨?_, ?_, ?_⟩
  · intro hr
    obtain ⟨p, hp, rfl⟩ := mem_prepare_records.mp hr
    simp
  · intro hr
    obtain ⟨p, hp, rfl⟩ := mem_prepare_records.mp hr
    simp
  · intro hok
    have hm0 : m0 = [] := by
      by_cases hcs : cs = 0
      · subst hcs
        have heq : count_sequences (okStream recs) 0 =
            count_sequences_sequential (okStream recs) := by
          simp [count_sequences]
        rw [heq, count_sequences_sequential_ok] at hok
        simp only [Except.ok.injEq, Prod.mk.injEq] at hok
        obtain ⟨hm, hlen⟩ := hok
        have hrecs : recs = [] := List.length_eq_zero.mp hlen
        subst hrecs
        exact hm.symm
      · obtain ⟨C, hC, hflat⟩ := count_sequences_chunked_ok recs cs hcs
        rw [hC] at hok
        simp only [Except.ok.injEq, Prod.mk.injEq] at hok
        obtain ⟨hm, hlen⟩ := hok
        have hrecs : recs = [] := List.length_eq_zero.mp hlen
        subst hrecs
        have hflat2 : C.flatten = [] := by simpa using hflat
        rw [← hm]
        have hnomem : ∀ t, t ∉ keys ((C.map count_chunk).foldl
            (fun acc m => mergeMaps acc m) []) := by
          intro t ht
          rw [merge_fold_mem_keys, hflat2] at ht
          simp at ht
        have hkeys : keys ((C.map count_chunk).foldl
            (fun acc m => mergeMaps acc m) []) = [] :=
          List.eq_nil_iff_forall_not_mem.mpr hnomem
        simp only [keys] at hkeys
        exact List.map_eq_nil_iff.mp hkeys
    subst hm0
    refine ⟨rfl, ?_⟩
    have hlen := length_prepare_records [] 0 b
    simp only [List.length_nil] at hlen
    exact List.length_eq_zero.mp hlen

/-- Witness for C7: on the map {A:2, B:1} with total 3 the row for A carries
RPM 2/3 * 1,000,000, and on the empty stream the zero-record clause applies.
-/
theorem C7_rpm_witness :
    (({ sequence := [65], count := 2,
        rpm := some ((2 : ℚ) / (3 : ℚ) * 1000000) } : SequenceRecord) ∈
      prepare_records [([65], 2), ([66], 1)] 3 true) ∧
    (({ sequence := [65], count := 2,
        rpm := some ((2 : ℚ) / (3 : ℚ) * 1000000) } : SequenceRecord)).rpm =
      some ((2 : ℚ) / (3 : ℚ) * 1000000) ∧
    (count_sequences (okStream []) 0 = .ok (([] : FreqMap), 0) ∧
      (([] : FreqMap) = [] ∧ prepare_records [] 0 true = [])) := by
  have hmem : ({ sequence := [65], count := 2,
                 rpm := some ((2 : ℚ) / (3 : ℚ) * 1000000) } :
        SequenceRecord) ∈
      prepare_records [([65], 2), ([66], 1)] 3 true := by
    rw [mem_prepare_records]
    exact ⟨([65], 2), by decide, by norm_num⟩
  have h1 := (C7_rpm [([65], 2), ([66], 1)] 3 _ [] 0 [] true).1 hmem
  refine ⟨hmem, ?_, by decide,
    (C7_rpm [([65], 2), ([66], 1)] 3 ⟨[], 0, none⟩ [] 0 [] true).2.2
      (by decide)⟩
  exact h1.trans (by norm_num)

/-- C8: a malformed record anywhere in the stream makes the counting
operation fail — for every chunk size, before any per-chunk counting or
merging — with the reader error wrapped in the originating context
"Failed to read record", and the per-file pipeline propagates that error,
building no table. -/
theorem C8_error_abort (pre : List Bytes) (e : String)
    (suf : List (Except String Bytes)) (cs : Nat) (b : Bool) :
    count_sequences (okStream pre ++ .error e :: suf) cs =
      .error ("Failed to read record: " ++ e) ∧
    process_file (okStream pre ++ .error e :: suf) cs b =
      .error ("Failed to read record: " ++ e) := by
  have hc : count_sequences (okStream pre ++ .error e :: suf) cs =
      .error ("Failed to read record: " ++ e) := by
    by_cases hcs : cs = 0
    · subst hcs
      have heq : count_sequences (okStream pre ++ .error e :: suf) 0 =
          count_sequences_sequential (okStream pre ++ .error e :: suf) := by
        simp [count_sequences]
      exact heq.trans (seqLoop_error pre e suf [] 0)
    · simp only [count_sequences, if_neg hcs, readChunks_error]
  refine ⟨hc, ?_⟩
  simp only [process_file, hc]

/-- C9: the Table is sorted by count descending — every adjacent pair of
rows satisfies r[i+1].count <= r[i].count — and it has exactly one row per
distinct sequence of the frequency map (equal lengths). -/
theorem C9_sorted (counts : FreqMap) (total : Nat) (b : Bool) :
    (prepare_records counts total b).Chain'
      (fun r1 r2 => r2.count ≤ r1.count) ∧
    (prepare_records counts total b).length = counts.length :=
  ⟨chain_prepare_records counts total b,
    length_prepare_records counts total b⟩

/-- C10: every Table the builder produces is homogeneous — all rows carry an
RPM value or none does — and under that guarantee the serializers'
first-row schema inspection describes all rows: the Parquet writer's
per-row RPM unwrap never fails, and every CSV/TSV line (header included)
has the same number of fields. -/
theorem C10_schema (counts : FreqMap) (total : Nat) (b : Bool) :
    allOrNothingRpm (prepare_records counts total b) ∧
    (save_parquet (prepare_records counts total b)).isSome = true ∧
    ∀ L1 ∈ save_csv_rows (prepare_records counts total b),
      ∀ L2 ∈ save_csv_rows (prepare_records counts total b),
        L1.length = L2.length := by
  have hhom := prepare_records_homogeneous counts total b
  refine ⟨hhom, save_parquet_isSome _ hhom, ?_⟩
  intro L1 h1 L2 h2
  rw [save_csv_rows_length _ hhom L1 h1, save_csv_rows_length _ hhom L2 h2]

/-- Witness for C10: on the empty map the produced Table is empty, the CSV
output is a lone two-field header, and the header trivially matches itself
through the theorem's uniform-width clause. -/
theorem C10_schema_witness :
    (["sequence", "count"] ∈ save_csv_rows (prepare_records [] 0 false)) ∧
    List.length ["sequence", "count"] =
      List.length ["sequence", "count"] := by
  have hnil : prepare_records [] 0 false = [] := by
    have hlen := length_prepare_records [] 0 false
    simp only [List.length_nil] at hlen
    exact List.length_eq_zero.mp hlen
  have hmem : ["sequence", "count"] ∈
      save_csv_rows (prepare_records [] 0 false) := by
    rw [hnil]
    decide
  exact ⟨hmem, (C10_schema [] 0 false).2.2 _ hmem _ hmem⟩
